import Mathlib

/-!
Shallow embedding of `dfs_warnsdorffs_knights_tour.py` (ANNT_PSI repository):
graph construction over board cells, Warnsdorff degree heuristic, and the
recursive depth-first search `traverse` inside `find_knights_tour`.

Modelling conventions:
* Python ints are `ℤ`; board cells (`Vertex`) are pairs of `ℤ`.
* The `defaultdict(set)` graph is an association list `List (Vertex × List Vertex)`
  whose neighbour lists are duplicate-free by construction (mirroring `set.add`).
  Reads of absent keys return the empty list, exactly the value a
  `defaultdict(set)` read yields.  `traverse` below treats reads as pure; the
  mutation a CPython `defaultdict.__getitem__` performs on an absent key
  (inserting the key with an empty set) is modelled separately and faithfully
  by `dget` / `traverse_st`, and the two models are proved to return the same
  search outcome.
* Python `set` iteration order is implementation defined (hash order); the
  embedding fixes insertion order as the base order of every neighbour list.
  No theorem below depends on that choice except through membership.
* The recursion of `traverse` is bounded with explicit fuel; the value
  `TOut.fuelOut` is a model artifact and is proved unreachable for the fuel
  `find_knights_tour` supplies.
-/

/-- A board cell `(row, col)`, Python tuple of ints. -/
abbrev Vertex : Type := ℤ × ℤ

/-- The eight fixed knight offsets, in the source's enumeration order. -/
def MOVE_OFFSETS : List (ℤ × ℤ) :=
  [(-1, -2), (1, -2), (-2, -1), (2, -1), (-2, 1), (2, 1), (-1, 2), (1, 2)]

/-- `0 <= row < board_size and 0 <= col < board_size`. -/
def inBounds (board_size : ℤ) (v : Vertex) : Prop :=
  0 ≤ v.1 ∧ v.1 < board_size ∧ 0 ≤ v.2 ∧ v.2 < board_size

instance (board_size : ℤ) (v : Vertex) : Decidable (inBounds board_size v) := by
  unfold inBounds; infer_instance

/-- The `defaultdict(set)` graph: association list from vertex to neighbour list. -/
abbrev Graph : Type := List (Vertex × List Vertex)

/-- `graph[v]` as a pure read: the stored neighbour list, or `[]` for an absent
key (the value a fresh `defaultdict(set)` entry holds). -/
def lookupAdj : Graph → Vertex → List Vertex
  | [], _ => []
  | (k, ns) :: rest, v => if k = v then ns else lookupAdj rest v

/-- The keys of the mapping, in insertion order (Python dicts preserve it). -/
def keysOf (g : Graph) : List Vertex :=
  g.map Prod.fst

/-- `graph[a].add(b)`: update the entry of `a` (inserting `b` into its
neighbour set if absent), creating the entry at the end of the dict when `a`
is not yet a key. -/
def addNbr : Graph → Vertex → Vertex → Graph
  | [], a, b => [(a, [b])]
  | (k, ns) :: rest, a, b =>
    if k = a then (k, if b ∈ ns then ns else ns ++ [b]) :: rest
    else (k, ns) :: addNbr rest a b

/-- `add_edge`: symmetric insertion, `graph[vertex_a].add(vertex_b)` then
`graph[vertex_b].add(vertex_a)`. -/
def add_edge (graph : Graph) (vertex_a vertex_b : Vertex) : Graph :=
  addNbr (addNbr graph vertex_a vertex_b) vertex_b vertex_a

/-- `legal_moves_from`: all in-bounds destinations from `(row, col)`, yielded
in the offsets' enumeration order. -/
def legal_moves_from (row col board_size : ℤ) : List Vertex :=
  MOVE_OFFSETS.filterMap (fun o =>
    let m : Vertex := (row + o.1, col + o.2)
    if 0 ≤ m.1 ∧ m.1 < board_size ∧ 0 ≤ m.2 ∧ m.2 < board_size then some m
    else none)

/-- `range(board_size)` as a list of integers. -/
def intRange (n : ℤ) : List ℤ :=
  (List.range n.toNat).map (fun i : ℕ => (i : ℤ))

/-- `build_graph`: for every cell in row-major order, `add_edge` to each of its
legal destinations.  Starts from the empty `defaultdict`. -/
def build_graph (board_size : ℤ) : Graph :=
  (intRange board_size).foldl (fun g row =>
    (intRange board_size).foldl (fun g col =>
      (legal_moves_from row col board_size).foldl (fun g m =>
        add_edge g (row, col) m) g) g) []

/-- `warnsdorffs_heuristic(graph)` returns `compute_degree`, the size of the
vertex's stored neighbour set (`len(graph[vertex])`). -/
def warnsdorffs_heuristic (graph : Graph) : Vertex → ℕ :=
  fun vertex => (lookupAdj graph vertex).length

/-- Insert into an already key-sorted list, after all entries of smaller or
equal key (so the sort below is stable over its input order). -/
def insertByKey {α : Type} (key : α → ℕ) (x : α) : List α → List α
  | [] => [x]
  | y :: ys => if key y ≤ key x then y :: insertByKey key x ys else x :: y :: ys

/-- `sorted(l, key=key)`: stable ascending sort by `key`. -/
def pySorted {α : Type} (key : α → ℕ) : List α → List α
  | [] => []
  | x :: xs => insertByKey key x (pySorted key xs)

/-- Outcome of `traverse`: a completed path (a Python list, truthy), the
falsy failure signals `False` / `None` (conflated, both falsy non-lists), or
fuel exhaustion — a model artifact proved unreachable for the supplied fuel. -/
inductive TOut : Type where
  | tour : List Vertex → TOut
  | fail : TOut
  | fuelOut : TOut
deriving DecidableEq

/-- `first_true` applied to the generator
`(traverse(path + [current], v) for v in next_vertices)`: evaluate the
candidates lazily in order and return the first truthy result, `None`
(conflated into `.fail`) when none is. -/
def firstTrueT (f : Vertex → TOut) : List Vertex → TOut
  | [] => .fail
  | v :: vs =>
    match f v with
    | .tour t => .tour t
    | .fuelOut => .fuelOut
    | .fail => firstTrueT f vs

/-- The recursive search `traverse` of `find_knights_tour`, with the graph
read as a pure lookup and explicit fuel. -/
def traverse (graph : Graph) (total_squares : ℤ) : ℕ → List Vertex → Vertex → TOut
  | 0, _, _ => .fuelOut
  | fuel + 1, path, current_vertex =>
    if (path.length : ℤ) + 1 = total_squares then .tour (path ++ [current_vertex])
    else
      let yet_to_visit := (lookupAdj graph current_vertex).filter
        (fun v => decide (v ∉ path))
      if yet_to_visit = [] then .fail
      else
        let next_vertices := pySorted (warnsdorffs_heuristic graph) yet_to_visit
        firstTrueT (fun v => traverse graph total_squares fuel (path ++ [current_vertex]) v)
          next_vertices

/-- The search part of `find_knights_tour`: build the graph, then
`traverse([], (start_row, start_col))`.  The fuel `total_squares.toNat + 2`
strictly exceeds every reachable recursion depth (proved below). -/
def find_knights_tour (board_size start_row start_col : ℤ) : TOut :=
  let graph := build_graph board_size
  let total_squares := board_size * board_size
  traverse graph total_squares (total_squares.toNat + 2) [] (start_row, start_col)

/-- What `find_knights_tour` does after the search: it serialises the solution
with a join over `solution`.  When the search failed, `solution` is
`False`/`None` and iterating it raises `TypeError`, aborting before the
function can return; on success the path is written and returned. -/
def find_knights_tour_run (board_size start_row start_col : ℤ) :
    Except String (List Vertex) :=
  match find_knights_tour board_size start_row start_col with
  | .tour t => .ok t
  | .fail => .error "TypeError: bool object is not iterable"
  | .fuelOut => .error "model artifact: fuel exhausted"

/-- CPython `defaultdict.__getitem__`: return the stored neighbour list, or
insert the key with an empty set (at the end of the dict) and return that.
This is the state-mutating read the pure `lookupAdj` elides. -/
def dget : Graph → Vertex → List Vertex × Graph
  | [], v => ([], [(v, [])])
  | (k, ns) :: rest, v =>
    if k = v then (ns, (k, ns) :: rest)
    else
      let p := dget rest v
      (p.1, (k, ns) :: p.2)

/-- The per-element key computation `sorted` performs before comparing:
`compute_degree` reads `graph[vertex]` through the defaultdict, threading the
(possible) key insertions. -/
def degreePairs : Graph → List Vertex → List (Vertex × ℕ) × Graph
  | g, [] => ([], g)
  | g, v :: vs =>
    let p := dget g v
    let rest := degreePairs p.2 vs
    ((v, p.1.length) :: rest.1, rest.2)

/-- `first_true` over the candidate generator, with the defaultdict state
threaded through the lazily evaluated recursive attempts. -/
def firstTrueSt (f : Graph → Vertex → TOut × Graph) : Graph → List Vertex → TOut × Graph
  | g, [] => (.fail, g)
  | g, v :: vs =>
    match f g v with
    | (.tour t, g') => (.tour t, g')
    | (.fuelOut, g') => (.fuelOut, g')
    | (.fail, g') => firstTrueSt f g' vs

/-- `traverse` with faithful CPython `defaultdict` reads: every `graph[...]`
is a `dget`, and the resulting dict is returned alongside the outcome. -/
def traverse_st (total_squares : ℤ) : ℕ → Graph → List Vertex → Vertex → TOut × Graph
  | 0, g, _, _ => (.fuelOut, g)
  | fuel + 1, g, path, current_vertex =>
    if (path.length : ℤ) + 1 = total_squares then (.tour (path ++ [current_vertex]), g)
    else
      let p := dget g current_vertex
      let yet_to_visit := p.1.filter (fun v => decide (v ∉ path))
      if yet_to_visit = [] then (.fail, p.2)
      else
        let dp := degreePairs p.2 yet_to_visit
        let next_vertices := (pySorted (fun q => q.2) dp.1).map (fun q => q.1)
        firstTrueSt (fun g v => traverse_st total_squares fuel g (path ++ [current_vertex]) v)
          dp.2 next_vertices

/-! ### Association-list lemmas: reads after `addNbr` / `add_edge` -/

theorem lookupAdj_addNbr (g : Graph) (a b x : Vertex) :
    lookupAdj (addNbr g a b) x =
      if x = a then
        (if b ∈ lookupAdj g a then lookupAdj g a else lookupAdj g a ++ [b])
      else lookupAdj g x := by
  induction g with
  | nil =>
    by_cases hx : x = a
    · subst hx
      simp [addNbr, lookupAdj]
    · have hax : ¬a = x := fun h => hx h.symm
      simp [addNbr, lookupAdj, hx, hax]
  | cons e rest ih =>
    obtain ⟨k, ns⟩ := e
    by_cases hk : k = a
    · subst hk
      by_cases hx : x = k
      · subst hx
        simp [addNbr, lookupAdj]
      · have hkx : ¬k = x := fun h => hx h.symm
        simp [addNbr, lookupAdj, hx, hkx]
    · by_cases hx : k = x
      · subst hx
        have hka : ¬k = a := hk
        have hak : ¬a = k := fun h => hk h.symm
        simp [addNbr, lookupAdj, hka, hak]
      · simp [addNbr, lookupAdj, hk, hx, ih]

theorem mem_lookupAdj_addNbr (g : Graph) (a b x c : Vertex) :
    c ∈ lookupAdj (addNbr g a b) x ↔ c ∈ lookupAdj g x ∨ (x = a ∧ c = b) := by
  rw [lookupAdj_addNbr]
  by_cases hx : x = a
  · subst hx
    by_cases hb : b ∈ lookupAdj g x
    · simp only [if_pos rfl, if_pos hb, true_and]
      constructor
      · exact fun h => Or.inl h
      · rintro (h | rfl)
        · exact h
        · exact hb
    · simp [if_pos rfl, if_neg hb]
  · simp [hx]

theorem mem_lookupAdj_add_edge (g : Graph) (a b x c : Vertex) :
    c ∈ lookupAdj (add_edge g a b) x ↔
      c ∈ lookupAdj g x ∨ (x = a ∧ c = b) ∨ (x = b ∧ c = a) := by
  unfold add_edge
  rw [mem_lookupAdj_addNbr, mem_lookupAdj_addNbr]
  tauto

theorem keysOf_addNbr (g : Graph) (a b : Vertex) :
    keysOf (addNbr g a b) =
      if a ∈ keysOf g then keysOf g else keysOf g ++ [a] := by
  induction g with
  | nil => simp [addNbr, keysOf]
  | cons e rest ih =>
    obtain ⟨k, ns⟩ := e
    by_cases hk : k = a
    · subst hk
      simp [addNbr, keysOf]
    · simp only [addNbr, if_neg hk, keysOf, List.map_cons] at ih ⊢
      rw [ih]
      by_cases ha : a ∈ List.map Prod.fst rest <;>
        simp [ha, Ne.symm hk]

theorem mem_keysOf_addNbr (g : Graph) (a b x : Vertex) :
    x ∈ keysOf (addNbr g a b) ↔ x ∈ keysOf g ∨ x = a := by
  rw [keysOf_addNbr]
  by_cases ha : a ∈ keysOf g
  · simp only [if_pos ha]
    constructor
    · exact fun h => Or.inl h
    · rintro (h | rfl)
      · exact h
      · exact ha
  · simp [if_neg ha]

theorem mem_keysOf_add_edge (g : Graph) (a b x : Vertex) :
    x ∈ keysOf (add_edge g a b) ↔ x ∈ keysOf g ∨ x = a ∨ x = b := by
  unfold add_edge
  rw [mem_keysOf_addNbr, mem_keysOf_addNbr]
  tauto

theorem nodup_keysOf_addNbr (g : Graph) (a b : Vertex)
    (h : (keysOf g).Nodup) : (keysOf (addNbr g a b)).Nodup := by
  rw [keysOf_addNbr]
  by_cases ha : a ∈ keysOf g
  · simpa [if_pos ha] using h
  · rw [if_neg ha]
    refine List.Nodup.append h (List.nodup_singleton a) ?_
    intro x hx hx'
    rw [List.mem_singleton] at hx'
    subst hx'
    exact ha hx

theorem nodup_keysOf_add_edge (g : Graph) (a b : Vertex)
    (h : (keysOf g).Nodup) : (keysOf (add_edge g a b)).Nodup :=
  nodup_keysOf_addNbr _ _ _ (nodup_keysOf_addNbr _ _ _ h)

/-! ### Generic fold characterisations for `build_graph` -/

theorem foldl_adj_mem {α : Type} (step : Graph → α → Graph)
    (Q : α → Vertex → Vertex → Prop)
    (hstep : ∀ g x a c, c ∈ lookupAdj (step g x) a ↔ c ∈ lookupAdj g a ∨ Q x a c) :
    ∀ (l : List α) (g : Graph) (a c : Vertex),
      c ∈ lookupAdj (l.foldl step g) a ↔ c ∈ lookupAdj g a ∨ ∃ x ∈ l, Q x a c := by
  intro l
  induction l with
  | nil => simp
  | cons y ys ih =>
    intro g a c
    simp only [List.foldl_cons, ih, hstep, List.mem_cons]
    constructor
    · rintro ((h | h) | ⟨x, hx, hq⟩)
      · exact Or.inl h
      · exact Or.inr ⟨y, Or.inl rfl, h⟩
      · exact Or.inr ⟨x, Or.inr hx, hq⟩
    · rintro (h | ⟨x, (rfl | hx), hq⟩)
      · exact Or.inl (Or.inl h)
      · exact Or.inl (Or.inr hq)
      · exact Or.inr ⟨x, hx, hq⟩

theorem foldl_keys_mem {α : Type} (step : Graph → α → Graph)
    (Q : α → Vertex → Prop)
    (hstep : ∀ g x a, a ∈ keysOf (step g x) ↔ a ∈ keysOf g ∨ Q x a) :
    ∀ (l : List α) (g : Graph) (a : Vertex),
      a ∈ keysOf (l.foldl step g) ↔ a ∈ keysOf g ∨ ∃ x ∈ l, Q x a := by
  intro l
  induction l with
  | nil => simp
  | cons y ys ih =>
    intro g a
    simp only [List.foldl_cons, ih, hstep, List.mem_cons]
    constructor
    · rintro ((h | h) | ⟨x, hx, hq⟩)
      · exact Or.inl h
      · exact Or.inr ⟨y, Or.inl rfl, h⟩
      · exact Or.inr ⟨x, Or.inr hx, hq⟩
    · rintro (h | ⟨x, (rfl | hx), hq⟩)
      · exact Or.inl (Or.inl h)
      · exact Or.inl (Or.inr hq)
      · exact Or.inr ⟨x, hx, hq⟩

theorem foldl_keys_nodup {α : Type} (step : Graph → α → Graph)
    (hstep : ∀ g x, (keysOf g).Nodup → (keysOf (step g x)).Nodup) :
    ∀ (l : List α) (g : Graph), (keysOf g).Nodup → (keysOf (l.foldl step g)).Nodup := by
  intro l
  induction l with
  | nil => intro g h; exact h
  | cons y ys ih =>
    intro g h
    exact ih _ (hstep _ _ h)

/-! ### Characterising `build_graph` -/

/-- The knight-move adjacency the built graph realises: both endpoints in
bounds and the displacement one of the eight offsets. -/
def knightAdj (board_size : ℤ) (a b : Vertex) : Prop :=
  inBounds board_size a ∧ inBounds board_size b ∧
    (b.1 - a.1, b.2 - a.2) ∈ MOVE_OFFSETS

instance (board_size : ℤ) (a b : Vertex) : Decidable (knightAdj board_size a b) := by
  unfold knightAdj; infer_instance

theorem mem_intRange (n r : ℤ) : r ∈ intRange n ↔ 0 ≤ r ∧ r < n := by
  unfold intRange
  simp only [List.mem_map, List.mem_range]
  constructor
  · rintro ⟨i, hi, rfl⟩
    constructor
    · exact Int.natCast_nonneg i
    · omega
  · rintro ⟨h0, hn⟩
    exact ⟨r.toNat, by omega, by omega⟩

theorem mem_legal_moves_from (row col board_size : ℤ) (m : Vertex) :
    m ∈ legal_moves_from row col board_size ↔
      ∃ o ∈ MOVE_OFFSETS, m = (row + o.1, col + o.2) ∧ inBounds board_size m := by
  unfold legal_moves_from
  simp only [List.mem_filterMap]
  constructor
  · rintro ⟨o, ho, hm⟩
    by_cases hin : 0 ≤ row + o.1 ∧ row + o.1 < board_size ∧ 0 ≤ col + o.2 ∧
        col + o.2 < board_size
    · simp only [if_pos hin, Option.some_inj] at hm
      subst hm
      exact ⟨o, ho, rfl, hin⟩
    · simp [if_neg hin] at hm
  · rintro ⟨o, ho, rfl, hin⟩
    refine ⟨o, ho, ?_⟩
    rw [if_pos]
    exact hin

theorem offsets_neg_closed :
    ∀ o ∈ MOVE_OFFSETS, ((-o.1, -o.2) : ℤ × ℤ) ∈ MOVE_OFFSETS := by
  decide

theorem offsets_ne_zero :
    ∀ o ∈ MOVE_OFFSETS, ¬(o.1 = 0 ∧ o.2 = 0) := by
  decide

theorem knightAdj_symm (board_size : ℤ) (a b : Vertex)
    (h : knightAdj board_size a b) : knightAdj board_size b a := by
  obtain ⟨ha, hb, ho⟩ := h
  refine ⟨hb, ha, ?_⟩
  have := offsets_neg_closed _ ho
  simpa using this

theorem knightAdj_ne (board_size : ℤ) (a b : Vertex)
    (h : knightAdj board_size a b) : b ≠ a := by
  obtain ⟨-, -, ho⟩ := h
  intro hba
  subst hba
  exact offsets_ne_zero _ ho (by simp)

theorem mem_lookupAdj_build_graph (board_size : ℤ) (a b : Vertex) :
    b ∈ lookupAdj (build_graph board_size) a ↔ knightAdj board_size a b := by
  unfold build_graph
  rw [foldl_adj_mem
    (Q := fun row a b => ∃ col ∈ intRange board_size,
      ∃ m ∈ legal_moves_from row col board_size,
        ((a = (row, col) ∧ b = m) ∨ (a = m ∧ b = (row, col))))]
  · simp only [lookupAdj, List.not_mem_nil, false_or]
    constructor
    · rintro ⟨row, hrow, col, hcol, m, hm, hcase⟩
      rw [mem_intRange] at hrow hcol
      rw [mem_legal_moves_from] at hm
      obtain ⟨o, ho, rfl, hin⟩ := hm
      rcases hcase with ⟨rfl, rfl⟩ | ⟨rfl, rfl⟩
      · refine ⟨⟨by simpa using hrow.1, by simpa using hrow.2,
          by simpa using hcol.1, by simpa using hcol.2⟩, hin, ?_⟩
        simpa using ho
      · refine ⟨hin, ⟨by simpa using hrow.1, by simpa using hrow.2,
          by simpa using hcol.1, by simpa using hcol.2⟩, ?_⟩
        have := offsets_neg_closed _ ho
        simpa using this
    · rintro ⟨ha, hb, ho⟩
      refine ⟨a.1, ?_, a.2, ?_, b, ?_, Or.inl ⟨rfl, ?_⟩⟩
      · rw [mem_intRange]; exact ⟨ha.1, ha.2.1⟩
      · rw [mem_intRange]; exact ⟨ha.2.2.1, ha.2.2.2⟩
      · rw [mem_legal_moves_from]
        refine ⟨(b.1 - a.1, b.2 - a.2), ho, ?_, hb⟩
        rw [Prod.ext_iff]
        refine ⟨by omega, by omega⟩
      · rfl
  · intro g row x c
    rw [foldl_adj_mem
      (Q := fun col a b => ∃ m ∈ legal_moves_from row col board_size,
        ((a = (row, col) ∧ b = m) ∨ (a = m ∧ b = (row, col))))]
    intro g col x c
    rw [foldl_adj_mem
      (Q := fun m a b => (a = (row, col) ∧ b = m) ∨ (a = m ∧ b = (row, col)))]
    intro g m x c
    rw [mem_lookupAdj_add_edge]

theorem mem_keysOf_build_graph (board_size : ℤ) (a : Vertex) :
    a ∈ keysOf (build_graph board_size) ↔ ∃ b, knightAdj board_size a b := by
  unfold build_graph
  rw [foldl_keys_mem
    (Q := fun row a => ∃ col ∈ intRange board_size,
      ∃ m ∈ legal_moves_from row col board_size, (a = (row, col) ∨ a = m))]
  · simp only [keysOf, List.map_nil, List.not_mem_nil, false_or]
    constructor
    · rintro ⟨row, hrow, col, hcol, m, hm, hcase⟩
      rw [mem_intRange] at hrow hcol
      rw [mem_legal_moves_from] at hm
      obtain ⟨o, ho, rfl, hin⟩ := hm
      rcases hcase with rfl | rfl
      · refine ⟨(row + o.1, col + o.2), ⟨hrow.1, hrow.2, hcol.1, hcol.2⟩, hin, ?_⟩
        simpa using ho
      · refine ⟨(row, col), hin, ⟨by simpa using hrow.1, by simpa using hrow.2,
          by simpa using hcol.1, by simpa using hcol.2⟩, ?_⟩
        have := offsets_neg_closed _ ho
        simpa using this
    · rintro ⟨b, ha, hb, ho⟩
      refine ⟨a.1, ?_, a.2, ?_, b, ?_, Or.inl rfl⟩
      · rw [mem_intRange]; exact ⟨ha.1, ha.2.1⟩
      · rw [mem_intRange]; exact ⟨ha.2.2.1, ha.2.2.2⟩
      · rw [mem_legal_moves_from]
        refine ⟨(b.1 - a.1, b.2 - a.2), ho, ?_, hb⟩
        rw [Prod.ext_iff]
        refine ⟨by omega, by omega⟩
  · intro g row x
    rw [foldl_keys_mem
      (Q := fun col a => ∃ m ∈ legal_moves_from row col board_size,
        (a = (row, col) ∨ a = m))]
    intro g col x
    rw [foldl_keys_mem
      (Q := fun m a => (a = (row, col) ∨ a = m))]
    intro g m x
    rw [mem_keysOf_add_edge]

theorem nodup_keysOf_build_graph (board_size : ℤ) :
    (keysOf (build_graph board_size)).Nodup := by
  unfold build_graph
  refine foldl_keys_nodup _ ?_ _ _ (by simp [keysOf])
  intro g row hg
  refine foldl_keys_nodup _ ?_ _ _ hg
  intro g col hg
  refine foldl_keys_nodup _ ?_ _ _ hg
  intro g m hg
  exact nodup_keysOf_add_edge _ _ _ hg

/-! ### Ordering and short-circuit lemmas -/

theorem mem_insertByKey {α : Type} (key : α → ℕ) (x y : α) (l : List α) :
    y ∈ insertByKey key x l ↔ y = x ∨ y ∈ l := by
  induction l with
  | nil => simp [insertByKey]
  | cons z zs ih =>
    by_cases h : key z ≤ key x
    · simp only [insertByKey, if_pos h, List.mem_cons, ih]
      tauto
    · simp only [insertByKey, if_neg h, List.mem_cons]

theorem mem_pySorted {α : Type} (key : α → ℕ) (y : α) (l : List α) :
    y ∈ pySorted key l ↔ y ∈ l := by
  induction l with
  | nil => simp [pySorted]
  | cons z zs ih =>
    simp only [pySorted, mem_insertByKey, List.mem_cons, ih]

theorem firstTrueT_tour (f : Vertex → TOut) (l : List Vertex) (t : List Vertex)
    (h : firstTrueT f l = .tour t) : ∃ v ∈ l, f v = .tour t := by
  induction l with
  | nil => simp [firstTrueT] at h
  | cons v vs ih =>
    rw [firstTrueT] at h
    cases hfv : f v with
    | tour t' =>
      rw [hfv] at h
      cases h
      exact ⟨v, List.mem_cons_self _ _, hfv⟩
    | fail =>
      rw [hfv] at h
      obtain ⟨w, hw, hfw⟩ := ih h
      exact ⟨w, List.mem_cons_of_mem _ hw, hfw⟩
    | fuelOut =>
      rw [hfv] at h
      cases h

theorem firstTrueT_ne_fuelOut (f : Vertex → TOut) (l : List Vertex)
    (h : ∀ v ∈ l, f v ≠ .fuelOut) : firstTrueT f l ≠ .fuelOut := by
  induction l with
  | nil => simp [firstTrueT]
  | cons v vs ih =>
    rw [firstTrueT]
    cases hfv : f v with
    | tour t' => simp
    | fail => exact ih (fun w hw => h w (List.mem_cons_of_mem _ hw))
    | fuelOut => exact absurd hfv (h v (List.mem_cons_self _ _))

theorem getLast?_append_singleton {α : Type} (l : List α) (a : α) :
    (l ++ [a]).getLast? = some a := by
  induction l with
  | nil => rfl
  | cons x xs ih =>
    rw [List.cons_append, List.getLast?_cons, ih]
    cases xs <;> simp [List.getLast?]

theorem nodup_append_singleton {α : Type} (l : List α) (a : α)
    (hnd : l.Nodup) (ha : a ∉ l) : (l ++ [a]).Nodup := by
  rw [List.nodup_append]
  refine ⟨hnd, List.nodup_singleton a, ?_⟩
  intro x hx hx'
  rw [List.mem_singleton] at hx'
  subst hx'
  exact ha hx

/-! ### Success invariant of `traverse` -/

/-- The in-bounds cells of the board, as a finite set. -/
def boardCells (board_size : ℤ) : Finset Vertex :=
  (Finset.Ico 0 board_size) ×ˢ (Finset.Ico 0 board_size)

theorem mem_boardCells (board_size : ℤ) (v : Vertex) :
    v ∈ boardCells board_size ↔ inBounds board_size v := by
  unfold boardCells inBounds
  rw [Finset.mem_product, Finset.mem_Ico, Finset.mem_Ico]
  tauto

theorem card_boardCells (board_size : ℤ) (h : 0 ≤ board_size) :
    (boardCells board_size).card = (board_size * board_size).toNat := by
  unfold boardCells
  rw [Finset.card_product, Int.card_Ico, sub_zero]
  have h1 : board_size * board_size = ((board_size.toNat * board_size.toNat : ℕ) : ℤ) := by
    push_cast
    rw [Int.toNat_of_nonneg h]
  rw [h1, Int.toNat_natCast]

theorem covers_board (board_size : ℤ) (h : 0 ≤ board_size) (t : List Vertex)
    (hnd : t.Nodup) (hb : ∀ v ∈ t, inBounds board_size v)
    (hlen : (t.length : ℤ) = board_size * board_size) :
    ∀ v, v ∈ t ↔ inBounds board_size v := by
  have hsub : t.toFinset ⊆ boardCells board_size := by
    intro v hv
    rw [mem_boardCells]
    exact hb v (List.mem_toFinset.mp hv)
  have hcard : (boardCells board_size).card ≤ t.toFinset.card := by
    rw [List.toFinset_card_of_nodup hnd, card_boardCells _ h]
    omega
  have heq := Finset.eq_of_subset_of_card_le hsub hcard
  intro v
  rw [← List.mem_toFinset, heq, mem_boardCells]

theorem traverse_fuel_zero (g : Graph) (tot : ℤ) (path : List Vertex) (cur : Vertex) :
    traverse g tot 0 path cur = TOut.fuelOut := rfl

theorem traverse_fuel_succ (g : Graph) (tot : ℤ) (fuel : ℕ) (path : List Vertex)
    (cur : Vertex) :
    traverse g tot (fuel + 1) path cur =
      (if (path.length : ℤ) + 1 = tot then TOut.tour (path ++ [cur])
       else if (lookupAdj g cur).filter (fun v => decide (v ∉ path)) = [] then TOut.fail
       else firstTrueT (fun v => traverse g tot fuel (path ++ [cur]) v)
         (pySorted (warnsdorffs_heuristic g)
           ((lookupAdj g cur).filter (fun v => decide (v ∉ path))))) := rfl

theorem traverse_tour_spec (board_size : ℤ) :
    ∀ (fuel : ℕ) (path : List Vertex) (cur : Vertex) (t : List Vertex),
      traverse (build_graph board_size) (board_size * board_size) fuel path cur =
        .tour t →
      path.Nodup → cur ∉ path → (∀ v ∈ path, inBounds board_size v) →
      inBounds board_size cur →
      List.Chain' (knightAdj board_size) (path ++ [cur]) →
      ((t.length : ℤ) = board_size * board_size ∧
        (∃ ext, t = (path ++ [cur]) ++ ext) ∧
        t.Nodup ∧ (∀ v ∈ t, inBounds board_size v) ∧
        List.Chain' (knightAdj board_size) t) := by
  intro fuel
  induction fuel with
  | zero =>
    intro path cur t h
    rw [traverse_fuel_zero] at h
    exact absurd h (by simp)
  | succ fuel ih =>
    intro path cur t h hnd hcp hpb hcb hch
    rw [traverse_fuel_succ] at h
    by_cases hdone : ((path.length : ℤ) + 1 = board_size * board_size)
    · rw [if_pos hdone] at h
      cases h
      refine ⟨by rw [List.length_append, List.length_singleton, Nat.cast_add,
          Nat.cast_one, hdone], ⟨[], by simp⟩,
        nodup_append_singleton _ _ hnd hcp, ?_, hch⟩
      intro v hv
      rcases List.mem_append.mp hv with hv | hv
      · exact hpb v hv
      · rw [List.mem_singleton] at hv
        subst hv
        exact hcb
    · rw [if_neg hdone] at h
      by_cases hytv : (lookupAdj (build_graph board_size) cur).filter
          (fun v => decide (v ∉ path)) = []
      · rw [if_pos hytv] at h
        exact absurd h (by simp)
      · rw [if_neg hytv] at h
        obtain ⟨v, hv, hfv⟩ := firstTrueT_tour _ _ _ h
        rw [mem_pySorted] at hv
        rw [List.mem_filter] at hv
        obtain ⟨hvadj, hvp⟩ := hv
        rw [decide_eq_true_iff] at hvp
        rw [mem_lookupAdj_build_graph] at hvadj
        have hvb : inBounds board_size v := hvadj.2.1
        have hvnec : v ≠ cur := knightAdj_ne _ _ _ hvadj
        have hvnp : v ∉ path ++ [cur] := by
          intro hmem
          rcases List.mem_append.mp hmem with hmem | hmem
          · exact hvp hmem
          · rw [List.mem_singleton] at hmem
            exact hvnec hmem
        have hch' : List.Chain' (knightAdj board_size) ((path ++ [cur]) ++ [v]) := by
          rw [List.chain'_append]
          refine ⟨hch, List.chain'_singleton v, ?_⟩
          intro x hx y hy
          rw [getLast?_append_singleton] at hx
          cases hx
          rw [List.head?_cons] at hy
          cases hy
          exact hvadj
        obtain ⟨hlen, ⟨ext, hext⟩, hnodup, hbounds, hchain⟩ :=
          ih (path ++ [cur]) v t hfv
            (nodup_append_singleton _ _ hnd hcp) hvnp
            (by
              intro w hw
              rcases List.mem_append.mp hw with hw | hw
              · exact hpb w hw
              · rw [List.mem_singleton] at hw
                subst hw
                exact hcb)
            hvb hch'
        refine ⟨hlen, ⟨[v] ++ ext, by rw [hext]; simp⟩, hnodup, hbounds, hchain⟩

/-! ### Termination: the supplied fuel is never exhausted -/

theorem length_filter_mono {α : Type} (l : List α) (p q : α → Bool)
    (himp : ∀ x, q x = true → p x = true) :
    (l.filter q).length ≤ (l.filter p).length := by
  induction l with
  | nil => simp
  | cons x xs ih =>
    by_cases hq : q x = true
    · rw [List.filter_cons, List.filter_cons, if_pos hq, if_pos (himp x hq)]
      simp only [List.length_cons]
      omega
    · rw [List.filter_cons, List.filter_cons, if_neg hq]
      by_cases hp : p x = true
      · rw [if_pos hp]
        simp only [List.length_cons]
        omega
      · rw [if_neg hp]
        exact ih

theorem length_filter_lt {α : Type} (l : List α) (p q : α → Bool) (v : α)
    (hv : v ∈ l) (hpv : p v = true) (hqv : q v = false)
    (himp : ∀ x, q x = true → p x = true) :
    (l.filter q).length < (l.filter p).length := by
  obtain ⟨l₁, l₂, rfl⟩ := List.append_of_mem hv
  rw [List.filter_append, List.filter_append, List.filter_cons, List.filter_cons,
    hpv, hqv, if_pos rfl, if_neg (by simp)]
  have h1 := length_filter_mono l₁ p q himp
  have h2 := length_filter_mono l₂ p q himp
  simp only [List.length_append, List.length_cons]
  omega

theorem traverse_ne_fuelOut (g : Graph) (tot : ℤ)
    (hcl : ∀ a b, b ∈ lookupAdj g a → b ∈ keysOf g)
    (hirr : ∀ a, a ∉ lookupAdj g a) :
    ∀ (fuel : ℕ) (path : List Vertex) (cur : Vertex),
      ((keysOf g).filter (fun k => decide (k ≠ cur ∧ k ∉ path))).length < fuel →
      traverse g tot fuel path cur ≠ .fuelOut := by
  intro fuel
  induction fuel with
  | zero =>
    intro path cur hm
    exact absurd hm (Nat.not_lt_zero _)
  | succ fuel ih =>
    intro path cur hm
    rw [traverse_fuel_succ]
    by_cases hdone : ((path.length : ℤ) + 1 = tot)
    · rw [if_pos hdone]
      simp
    · rw [if_neg hdone]
      by_cases hytv : (lookupAdj g cur).filter (fun v => decide (v ∉ path)) = []
      · rw [if_pos hytv]
        simp
      · rw [if_neg hytv]
        apply firstTrueT_ne_fuelOut
        intro v hv
        rw [mem_pySorted, List.mem_filter, decide_eq_true_iff] at hv
        obtain ⟨hvadj, hvp⟩ := hv
        have hvk : v ∈ keysOf g := hcl cur v hvadj
        have hvc : v ≠ cur := by
          intro hvc
          subst hvc
          exact hirr _ hvadj
        apply ih
        have hlt := length_filter_lt (keysOf g)
          (fun k => decide (k ≠ cur ∧ k ∉ path))
          (fun k => decide (k ≠ v ∧ k ∉ path ++ [cur])) v hvk
          (by simp [hvc, hvp]) (by simp)
          (by
            intro x hx
            rw [decide_eq_true_iff] at hx ⊢
            obtain ⟨hxv, hxm⟩ := hx
            constructor
            · intro hxc
              subst hxc
              exact hxm (List.mem_append.mpr (Or.inr (List.mem_singleton_self _)))
            · intro hxp
              exact hxm (List.mem_append.mpr (Or.inl hxp)))
        omega

theorem keysOf_build_graph_length_le (board_size : ℤ) :
    (keysOf (build_graph board_size)).length ≤ (board_size * board_size).toNat := by
  by_cases h : 0 ≤ board_size
  · have hnd := nodup_keysOf_build_graph board_size
    have hsub : (keysOf (build_graph board_size)).toFinset ⊆ boardCells board_size := by
      intro v hv
      rw [List.mem_toFinset, mem_keysOf_build_graph] at hv
      obtain ⟨b, hb⟩ := hv
      rw [mem_boardCells]
      exact hb.1
    have := Finset.card_le_card hsub
    rw [List.toFinset_card_of_nodup hnd, card_boardCells _ h] at this
    exact this
  · have : keysOf (build_graph board_size) = [] := by
      rw [List.eq_nil_iff_forall_not_mem]
      intro k hk
      rw [mem_keysOf_build_graph] at hk
      obtain ⟨b, hb⟩ := hk
      obtain ⟨⟨h1, h2, -⟩, -, -⟩ := hb
      omega
    rw [this]
    simp

theorem build_graph_closed (board_size : ℤ) (a b : Vertex)
    (h : b ∈ lookupAdj (build_graph board_size) a) :
    b ∈ keysOf (build_graph board_size) := by
  rw [mem_lookupAdj_build_graph] at h
  rw [mem_keysOf_build_graph]
  exact ⟨a, knightAdj_symm _ _ _ h⟩

theorem build_graph_irrefl (board_size : ℤ) (a : Vertex) :
    a ∉ lookupAdj (build_graph board_size) a := by
  intro h
  rw [mem_lookupAdj_build_graph] at h
  exact knightAdj_ne _ _ _ h rfl

theorem find_knights_tour_ne_fuelOut (board_size start_row start_col : ℤ) :
    find_knights_tour board_size start_row start_col ≠ TOut.fuelOut := by
  apply traverse_ne_fuelOut _ _ (build_graph_closed board_size)
    (build_graph_irrefl board_size)
  apply Nat.lt_of_le_of_lt (List.length_filter_le _ _)
  have h2 := keysOf_build_graph_length_le board_size
  omega

/-! ### The defaultdict-faithful search agrees with the pure one -/

theorem dget_fst (g : Graph) (v : Vertex) : (dget g v).1 = lookupAdj g v := by
  induction g with
  | nil => rfl
  | cons e rest ih =>
    obtain ⟨k, ns⟩ := e
    by_cases hk : k = v
    · simp [dget, lookupAdj, hk]
    · simp [dget, lookupAdj, hk, ih]

theorem lookupAdj_dget (g : Graph) (v x : Vertex) :
    lookupAdj (dget g v).2 x = lookupAdj g x := by
  induction g with
  | nil =>
    show lookupAdj [(v, [])] x = lookupAdj [] x
    by_cases hv : v = x <;> simp [lookupAdj, hv]
  | cons e rest ih =>
    obtain ⟨k, ns⟩ := e
    by_cases hk : k = v
    · simp [dget, hk]
    · by_cases hx : k = x
      · have hxv : ¬x = v := by rw [← hx]; exact hk
        simp [dget, lookupAdj, hk, hx, hxv, ih]
      · simp [dget, lookupAdj, hk, hx, ih]

theorem degreePairs_fst (l : List Vertex) :
    ∀ (g : Graph),
      (degreePairs g l).1 = l.map (fun v => (v, (lookupAdj g v).length)) := by
  induction l with
  | nil => intro g; rfl
  | cons v vs ih =>
    intro g
    show (v, (dget g v).1.length) :: (degreePairs (dget g v).2 vs).1 = _
    rw [dget_fst, ih]
    simp only [List.map_cons, List.cons.injEq, true_and]
    apply List.map_congr_left
    intro w _
    rw [lookupAdj_dget]

theorem lookupAdj_degreePairs (l : List Vertex) :
    ∀ (g : Graph) (x : Vertex),
      lookupAdj (degreePairs g l).2 x = lookupAdj g x := by
  induction l with
  | nil => intro g x; rfl
  | cons v vs ih =>
    intro g x
    show lookupAdj (degreePairs (dget g v).2 vs).2 x = _
    rw [ih, lookupAdj_dget]

theorem map_fst_insertByKey (key : Vertex → ℕ) (v : Vertex) :
    ∀ (L : List (Vertex × ℕ)), (∀ p ∈ L, p.2 = key p.1) →
      (insertByKey (fun q => q.2) (v, key v) L).map (fun q => q.1) =
        insertByKey key v (L.map (fun q => q.1)) := by
  intro L
  induction L with
  | nil => intro; rfl
  | cons w rest ih =>
    intro hL
    obtain ⟨w1, w2⟩ := w
    have hw : w2 = key w1 := hL (w1, w2) (List.mem_cons_self _ _)
    subst hw
    have ih' := ih (fun p hp => hL p (List.mem_cons_of_mem _ hp))
    by_cases h : key w1 ≤ key v
    · simp [insertByKey, h, ih']
    · simp [insertByKey, h]

theorem map_fst_pySorted (key : Vertex → ℕ) (l : List Vertex) :
    (pySorted (fun q => q.2) (l.map (fun v => (v, key v)))).map (fun q => q.1) =
      pySorted key l := by
  induction l with
  | nil => rfl
  | cons v vs ih =>
    rw [List.map_cons]
    show (insertByKey (fun q => q.2) (v, key v)
      (pySorted (fun q => q.2) (vs.map (fun v => (v, key v))))).map (fun q => q.1) = _
    rw [map_fst_insertByKey, ih]
    · rfl
    · intro p hp
      rw [mem_pySorted, List.mem_map] at hp
      obtain ⟨w, -, rfl⟩ := hp
      rfl

theorem firstTrueSt_cons (f : Graph → Vertex → TOut × Graph) (g : Graph)
    (v : Vertex) (vs : List Vertex) :
    firstTrueSt f g (v :: vs) =
      (match f g v with
       | (.tour t, g') => (TOut.tour t, g')
       | (.fuelOut, g') => (TOut.fuelOut, g')
       | (.fail, g') => firstTrueSt f g' vs) := rfl

theorem firstTrueT_congr (f f' : Vertex → TOut) (l : List Vertex)
    (h : ∀ v ∈ l, f v = f' v) : firstTrueT f l = firstTrueT f' l := by
  induction l with
  | nil => rfl
  | cons v vs ih =>
    rw [firstTrueT, firstTrueT, h v (List.mem_cons_self _ _)]
    cases f' v with
    | tour t => rfl
    | fuelOut => rfl
    | fail => exact ih (fun w hw => h w (List.mem_cons_of_mem _ hw))

theorem traverse_congr (g₁ g₂ : Graph) (h : ∀ x, lookupAdj g₁ x = lookupAdj g₂ x)
    (tot : ℤ) :
    ∀ (fuel : ℕ) (path : List Vertex) (cur : Vertex),
      traverse g₁ tot fuel path cur = traverse g₂ tot fuel path cur := by
  intro fuel
  induction fuel with
  | zero => intro path cur; rfl
  | succ fuel ih =>
    intro path cur
    rw [traverse_fuel_succ, traverse_fuel_succ, h cur]
    have hheu : warnsdorffs_heuristic g₁ = warnsdorffs_heuristic g₂ := by
      funext x
      unfold warnsdorffs_heuristic
      rw [h x]
    rw [hheu]
    by_cases hdone : ((path.length : ℤ) + 1 = tot)
    · rw [if_pos hdone, if_pos hdone]
    · rw [if_neg hdone, if_neg hdone]
      by_cases hytv : (lookupAdj g₂ cur).filter (fun v => decide (v ∉ path)) = []
      · rw [if_pos hytv, if_pos hytv]
      · rw [if_neg hytv, if_neg hytv]
        exact firstTrueT_congr _ _ _ (fun v _ => ih (path ++ [cur]) v)

theorem firstTrueSt_spec (g₀ : Graph) (f : Graph → Vertex → TOut × Graph)
    (f' : Vertex → TOut)
    (hf : ∀ (g : Graph) (v : Vertex), (∀ x, lookupAdj g x = lookupAdj g₀ x) →
      ((f g v).1 = f' v ∧ ∀ x, lookupAdj (f g v).2 x = lookupAdj g x)) :
    ∀ (l : List Vertex) (g : Graph), (∀ x, lookupAdj g x = lookupAdj g₀ x) →
      (firstTrueSt f g l).1 = firstTrueT f' l ∧
        ∀ x, lookupAdj (firstTrueSt f g l).2 x = lookupAdj g x := by
  intro l
  induction l with
  | nil =>
    intro g hg
    exact ⟨rfl, fun x => rfl⟩
  | cons v vs ih =>
    intro g hg
    obtain ⟨h1, h2⟩ := hf g v hg
    rw [firstTrueSt_cons, firstTrueT]
    rcases hfv : f g v with ⟨out, g'⟩
    rw [hfv] at h1 h2
    rw [← h1]
    cases out with
    | tour t => exact ⟨rfl, fun x => h2 x⟩
    | fuelOut => exact ⟨rfl, fun x => h2 x⟩
    | fail =>
      obtain ⟨ih1, ih2⟩ := ih g' (fun x => (h2 x).trans (hg x))
      exact ⟨ih1, fun x => (ih2 x).trans (h2 x)⟩

theorem traverse_st_succ (tot : ℤ) (fuel : ℕ) (g : Graph) (path : List Vertex)
    (cur : Vertex) :
    traverse_st tot (fuel + 1) g path cur =
      (if (path.length : ℤ) + 1 = tot then (TOut.tour (path ++ [cur]), g)
       else if (dget g cur).1.filter (fun v => decide (v ∉ path)) = [] then
         (TOut.fail, (dget g cur).2)
       else firstTrueSt (fun g v => traverse_st tot fuel g (path ++ [cur]) v)
         (degreePairs (dget g cur).2
           ((dget g cur).1.filter (fun v => decide (v ∉ path)))).2
         ((pySorted (fun q => q.2)
           (degreePairs (dget g cur).2
             ((dget g cur).1.filter (fun v => decide (v ∉ path)))).1).map
               (fun q => q.1))) := rfl

theorem traverse_st_spec (tot : ℤ) :
    ∀ (fuel : ℕ) (g : Graph) (path : List Vertex) (cur : Vertex),
      (traverse_st tot fuel g path cur).1 = traverse g tot fuel path cur ∧
        ∀ x, lookupAdj (traverse_st tot fuel g path cur).2 x = lookupAdj g x := by
  intro fuel
  induction fuel with
  | zero => intro g path cur; exact ⟨rfl, fun x => rfl⟩
  | succ fuel ih =>
    intro g path cur
    rw [traverse_st_succ, traverse_fuel_succ]
    by_cases hdone : ((path.length : ℤ) + 1 = tot)
    · rw [if_pos hdone, if_pos hdone]
      exact ⟨rfl, fun x => rfl⟩
    · rw [if_neg hdone, if_neg hdone]
      have hytv_eq : (dget g cur).1.filter (fun v => decide (v ∉ path)) =
          (lookupAdj g cur).filter (fun v => decide (v ∉ path)) := by
        rw [dget_fst]
      rw [hytv_eq]
      by_cases hytv : (lookupAdj g cur).filter (fun v => decide (v ∉ path)) = []
      · rw [if_pos hytv, if_pos hytv]
        exact ⟨rfl, fun x => lookupAdj_dget g cur x⟩
      · rw [if_neg hytv, if_neg hytv]
        have hpairs : (degreePairs (dget g cur).2
            ((lookupAdj g cur).filter (fun v => decide (v ∉ path)))).1 =
            ((lookupAdj g cur).filter (fun v => decide (v ∉ path))).map
              (fun v => (v, warnsdorffs_heuristic g v)) := by
          rw [degreePairs_fst]
          apply List.map_congr_left
          intro w _
          rw [lookupAdj_dget]
          rfl
        have hnext : ((pySorted (fun q => q.2)
            (degreePairs (dget g cur).2
              ((lookupAdj g cur).filter (fun v => decide (v ∉ path)))).1).map
                (fun q => q.1)) =
            pySorted (warnsdorffs_heuristic g)
              ((lookupAdj g cur).filter (fun v => decide (v ∉ path))) := by
          rw [hpairs, map_fst_pySorted]
        rw [hnext]
        have hbase : ∀ x, lookupAdj (degreePairs (dget g cur).2
            ((lookupAdj g cur).filter (fun v => decide (v ∉ path)))).2 x =
            lookupAdj g x := by
          intro x
          rw [lookupAdj_degreePairs, lookupAdj_dget]
        obtain ⟨hh1, hh2⟩ := firstTrueSt_spec g
          (fun g v => traverse_st tot fuel g (path ++ [cur]) v)
          (fun v => traverse g tot fuel (path ++ [cur]) v)
          (by
            intro g' v hg'
            obtain ⟨i1, i2⟩ := ih g' (path ++ [cur]) v
            refine ⟨?_, i2⟩
            rw [i1]
            exact traverse_congr g' g hg' tot fuel (path ++ [cur]) v)
          (pySorted (warnsdorffs_heuristic g)
            ((lookupAdj g cur).filter (fun v => decide (v ∉ path))))
          (degreePairs (dget g cur).2
            ((lookupAdj g cur).filter (fun v => decide (v ∉ path)))).2
          hbase
        exact ⟨hh1, fun x => (hh2 x).trans (hbase x)⟩

/-! ### Remaining auxiliary facts -/

theorem find_knights_tour_def (board_size start_row start_col : ℤ) :
    find_knights_tour board_size start_row start_col =
      traverse (build_graph board_size) (board_size * board_size)
        ((board_size * board_size).toNat + 2) [] (start_row, start_col) := rfl

theorem lookupAdj_build_graph_eq_nil (board_size : ℤ) (v : Vertex)
    (h : ¬inBounds board_size v) :
    lookupAdj (build_graph board_size) v = [] := by
  rw [List.eq_nil_iff_forall_not_mem]
  intro b hb
  rw [mem_lookupAdj_build_graph] at hb
  exact h hb.1

theorem traverse_nil_fail (tot : ℤ) (fuel : ℕ) (path : List Vertex) (cur : Vertex)
    (h : (path.length : ℤ) + 1 ≠ tot) :
    traverse [] tot (fuel + 1) path cur = TOut.fail := by
  rw [traverse_fuel_succ, if_neg h]
  rfl

theorem legal_moves_iff_knightAdj (board_size : ℤ) (v b : Vertex)
    (hv : inBounds board_size v) :
    b ∈ legal_moves_from v.1 v.2 board_size ↔ knightAdj board_size v b := by
  rw [mem_legal_moves_from]
  constructor
  · rintro ⟨o, ho, rfl, hin⟩
    refine ⟨hv, hin, ?_⟩
    simpa using ho
  · rintro ⟨-, hb, ho⟩
    refine ⟨(b.1 - v.1, b.2 - v.2), ho, ?_, hb⟩
    rw [Prod.ext_iff]
    refine ⟨by omega, by omega⟩

theorem min_degree_pos (board_size : ℤ) (h4 : 4 ≤ board_size) (v : Vertex)
    (hv : inBounds board_size v) :
    legal_moves_from v.1 v.2 board_size ≠ [] := by
  obtain ⟨h1, h2, h3, h4c⟩ := hv
  have hmem : ∃ o : ℤ × ℤ, o ∈ MOVE_OFFSETS ∧
      inBounds board_size (v.1 + o.1, v.2 + o.2) := by
    by_cases hr : 2 ≤ v.1
    · by_cases hc : 1 ≤ v.2
      · exact ⟨(-2, -1), by decide, by constructor <;> simp <;> omega⟩
      · exact ⟨(-2, 1), by decide, by constructor <;> simp <;> omega⟩
    · by_cases hc : 1 ≤ v.2
      · exact ⟨(2, -1), by decide, by constructor <;> simp <;> omega⟩
      · exact ⟨(2, 1), by decide, by constructor <;> simp <;> omega⟩
  obtain ⟨o, ho, hin⟩ := hmem
  apply List.ne_nil_of_mem (a := (v.1 + o.1, v.2 + o.2))
  rw [legal_moves_iff_knightAdj _ _ _ ⟨h1, h2, h3, h4c⟩]
  refine ⟨⟨h1, h2, h3, h4c⟩, hin, ?_⟩
  simpa using ho

/-! ### The claims -/

/-- C1: for every board size `N ≥ 1` and in-bounds start, whenever the search
inside `find_knights_tour` returns a sequence, that sequence has length `N*N`,
contains every board cell exactly once (no duplicates), starts with the
requested vertex, and every consecutive pair is an edge of the built move
graph, equivalently differs by one of the eight knight offsets. -/
theorem C1_successful_tour_correct (board_size : ℤ) (hN : 1 ≤ board_size)
    (start_row start_col : ℤ)
    (hs : inBounds board_size (start_row, start_col)) (t : List Vertex)
    (h : find_knights_tour board_size start_row start_col = TOut.tour t) :
    (t.length : ℤ) = board_size * board_size ∧
      t.Nodup ∧
      (∀ v, v ∈ t ↔ inBounds board_size v) ∧
      t.head? = some (start_row, start_col) ∧
      List.Chain' (fun a b => b ∈ lookupAdj (build_graph board_size) a) t ∧
      List.Chain' (fun a b => (b.1 - a.1, b.2 - a.2) ∈ MOVE_OFFSETS) t := by
  rw [find_knights_tour_def] at h
  obtain ⟨hlen, ⟨ext, hext⟩, hnodup, hbounds, hchain⟩ :=
    traverse_tour_spec board_size _ [] (start_row, start_col) t h
      List.nodup_nil (List.not_mem_nil _) (by intro v hv; cases hv) hs
      (List.chain'_singleton _)
  refine ⟨hlen, hnodup, covers_board board_size (by omega) t hnodup hbounds hlen,
    ?_, ?_, ?_⟩
  · rw [hext]
    rfl
  · exact hchain.imp (fun a b hab => (mem_lookupAdj_build_graph _ _ _).mpr hab)
  · exact hchain.imp (fun a b hab => hab.2.2)

/-- C1 witness: the board of size 1 from start `(0, 0)` yields the tour
`[(0, 0)]`, and the theorem's conclusions hold of it. -/
theorem C1_successful_tour_correct_witness :
    find_knights_tour 1 0 0 = TOut.tour [((0 : ℤ), (0 : ℤ))] ∧
      (∀ v, v ∈ [((0 : ℤ), (0 : ℤ))] ↔ inBounds 1 v) ∧
      ([((0 : ℤ), (0 : ℤ))] : List Vertex).head? = some (0, 0) :=
  ⟨by decide,
   (C1_successful_tour_correct 1 (by norm_num) 0 0 (by decide) [(0, 0)]
     (by decide)).2.2.1,
   (C1_successful_tour_correct 1 (by norm_num) 0 0 (by decide) [(0, 0)]
     (by decide)).2.2.2.1⟩

/-- C2: on `board_size = 2`, `start = (0, 0)` the exhaustive search returns the
falsy failure value (no tour exists, distinguishable from every tour), but
`find_knights_tour` then crashes with a `TypeError` while serialising that
value, so the failure never reaches the caller as data. -/
theorem C2_failure_crashes_in_serialisation :
    find_knights_tour 2 0 0 = TOut.fail ∧
      find_knights_tour_run 2 0 0 =
        Except.error "TypeError: bool object is not iterable" := by
  exact ⟨by decide, by rfl⟩

set_option maxRecDepth 4000 in
/-- C3 counterexample: `find_knights_tour` performs no input validation.  A
zero board size and an out-of-bounds start both run the search and produce
exactly the `TOut.fail` value of an exhausted `NoTourFound` search, not a
distinguishable rejection. -/
theorem C3_counterexample_no_validation :
    find_knights_tour 0 0 0 = TOut.fail ∧
      find_knights_tour 8 9 9 = TOut.fail ∧
      find_knights_tour 2 0 0 = TOut.fail := by
  exact ⟨by decide, by decide, by decide⟩

/-- C3 amended: no validation happens — board size `0` and out-of-bounds
starts are fed straight to the search.  With board size `0` every start, and
with board size at least `2` every out-of-bounds start, returns the ordinary
failure value, indistinguishable from `NoTourFound`; with board size `1` not
even that: the search returns a spurious single-cell tour of the (possibly
out-of-bounds) start.  In no case is a validation error produced. -/
theorem C3_amended_no_validation :
    (∀ start_row start_col : ℤ, find_knights_tour 0 start_row start_col = TOut.fail) ∧
      (∀ board_size start_row start_col : ℤ, 2 ≤ board_size →
        ¬inBounds board_size (start_row, start_col) →
        find_knights_tour board_size start_row start_col = TOut.fail) ∧
      (∀ start_row start_col : ℤ,
        find_knights_tour 1 start_row start_col =
          TOut.tour [(start_row, start_col)]) := by
  refine ⟨?_, ?_, ?_⟩
  · intro start_row start_col
    rw [find_knights_tour_def]
    have hbg : build_graph 0 = [] := rfl
    rw [hbg]
    show traverse [] ((0 : ℤ) * 0) (((0 : ℤ) * 0).toNat + 1 + 1) [] (start_row, start_col)
      = TOut.fail
    exact traverse_nil_fail _ _ _ _ (by norm_num)
  · intro board_size start_row start_col hb hs
    rw [find_knights_tour_def]
    show traverse (build_graph board_size) (board_size * board_size)
      ((board_size * board_size).toNat + 1 + 1) [] (start_row, start_col) = TOut.fail
    rw [traverse_fuel_succ]
    have h4 : 4 ≤ board_size * board_size := by nlinarith
    rw [if_neg (by intro heq; rw [List.length_nil] at heq; norm_num at heq; omega)]
    rw [lookupAdj_build_graph_eq_nil board_size _ hs]
    rfl
  · intro start_row start_col
    rw [find_knights_tour_def]
    show traverse (build_graph 1) (1 * 1) (((1 : ℤ) * 1).toNat + 1 + 1) []
      (start_row, start_col) = _
    rw [traverse_fuel_succ, if_pos (by norm_num)]
    rfl

/-- C3 amended witness: concrete instances of all three conjuncts, the last
with an out-of-bounds start. -/
theorem C3_amended_no_validation_witness :
    find_knights_tour 0 5 (-7) = TOut.fail ∧ find_knights_tour 8 9 9 = TOut.fail ∧
      find_knights_tour 1 9 9 = TOut.tour [(9, 9)] :=
  ⟨C3_amended_no_validation.1 5 (-7),
   C3_amended_no_validation.2.1 8 9 9 (by norm_num) (by decide),
   C3_amended_no_validation.2.2 9 9⟩

/-- C5: the Warnsdorff score of a vertex is the size of its full stored
neighbour set — visited cells are counted too: for any visited list whatever,
the score is the number of still-unvisited neighbours plus the number of
already-visited ones. -/
theorem C5_heuristic_is_raw_degree (graph : Graph) (path : List Vertex)
    (vertex : Vertex) :
    warnsdorffs_heuristic graph vertex = (lookupAdj graph vertex).length ∧
      warnsdorffs_heuristic graph vertex =
        ((lookupAdj graph vertex).filter (fun v => decide (v ∉ path))).length +
          ((lookupAdj graph vertex).filter (fun v => decide (v ∈ path))).length := by
  refine ⟨rfl, ?_⟩
  have h := List.length_eq_length_filter_add (l := lookupAdj graph vertex)
    (fun v => decide (v ∈ path))
  have hnot : (lookupAdj graph vertex).filter (fun v => !(decide (v ∈ path))) =
      (lookupAdj graph vertex).filter (fun v => decide (v ∉ path)) := by
    apply List.filter_congr
    intro x _
    rw [decide_not]
  rw [hnot] at h
  show (lookupAdj graph vertex).length = _
  omega

/-- C6: the built move graph is a symmetric relation. -/
theorem C6_build_graph_symmetric (board_size : ℤ) (_hN : 1 ≤ board_size)
    (a b : Vertex) :
    b ∈ lookupAdj (build_graph board_size) a ↔
      a ∈ lookupAdj (build_graph board_size) b := by
  rw [mem_lookupAdj_build_graph, mem_lookupAdj_build_graph]
  exact ⟨knightAdj_symm _ _ _, knightAdj_symm _ _ _⟩

/-- C6 witness: symmetry at a concrete edge of the 3-board. -/
theorem C6_build_graph_symmetric_witness :
    ((1, 2) : Vertex) ∈ lookupAdj (build_graph 3) (0, 0) ↔
      ((0, 0) : Vertex) ∈ lookupAdj (build_graph 3) (1, 2) :=
  C6_build_graph_symmetric 3 (by norm_num) (0, 0) (1, 2)

/-- C7 counterexample: `build_graph 1` is the empty mapping — it does not
contain the vertex `(0, 0)`, and `build_graph 3` has only 8 of the 9 cells
(the centre, having no move, is absent). -/
theorem C7_counterexample_small_boards :
    build_graph 1 = ([] : Graph) ∧
      keysOf (build_graph 1) = [] ∧
      (keysOf (build_graph 3)).length = 8 := by
  exact ⟨by decide, by decide, by decide⟩

/-- C7 amended: the mapping's vertices are exactly the in-bounds cells with at
least one legal knight move; for every `N ≥ 4` that is all `N*N` cells, while
`N = 1, 2` give an empty mapping and `N = 3` omits the centre. -/
theorem C7_amended_vertices (board_size : ℤ) :
    (∀ v : Vertex, v ∈ keysOf (build_graph board_size) ↔
      inBounds board_size v ∧ legal_moves_from v.1 v.2 board_size ≠ []) ∧
      (4 ≤ board_size →
        (keysOf (build_graph board_size)).length =
          (board_size * board_size).toNat) := by
  have hmem : ∀ v : Vertex, v ∈ keysOf (build_graph board_size) ↔
      inBounds board_size v ∧ legal_moves_from v.1 v.2 board_size ≠ [] := by
    intro v
    rw [mem_keysOf_build_graph]
    constructor
    · rintro ⟨b, hb⟩
      refine ⟨hb.1, ?_⟩
      apply List.ne_nil_of_mem (a := b)
      rw [legal_moves_iff_knightAdj _ _ _ hb.1]
      exact hb
    · rintro ⟨hv, hne⟩
      obtain ⟨m, hm⟩ := List.exists_mem_of_ne_nil _ hne
      rw [legal_moves_iff_knightAdj _ _ _ hv] at hm
      exact ⟨m, hm⟩
  refine ⟨hmem, ?_⟩
  intro h4
  have heq : (keysOf (build_graph board_size)).toFinset = boardCells board_size := by
    ext v
    rw [List.mem_toFinset, hmem v, mem_boardCells]
    constructor
    · exact fun hv => hv.1
    · exact fun hv => ⟨hv, min_degree_pos board_size h4 v hv⟩
  rw [← List.toFinset_card_of_nodup (nodup_keysOf_build_graph board_size), heq,
    card_boardCells board_size (by omega)]

/-- C7 amended witness: on the 4-board every cell is a key and the mapping has
16 vertices. -/
theorem C7_amended_vertices_witness :
    (((0, 0) : Vertex) ∈ keysOf (build_graph 4) ↔
      inBounds 4 ((0, 0) : Vertex) ∧ legal_moves_from 0 0 4 ≠ []) ∧
      (keysOf (build_graph 4)).length = ((4 : ℤ) * 4).toNat :=
  ⟨(C7_amended_vertices 4).1 (0, 0), (C7_amended_vertices 4).2 (by norm_num)⟩

/-- C8 counterexample: running the defaultdict-faithful search on the 2-board
from `(0, 0)` adds the key `(0, 0)` (with an empty neighbour set) to the
graph, which `build_graph 2` had left empty — the search does add a vertex to
the mapping. -/
theorem C8_counterexample_key_inserted :
    build_graph 2 = ([] : Graph) ∧
      (traverse_st ((2 : ℤ) * 2) (((2 : ℤ) * 2).toNat + 2) (build_graph 2) []
        (0, 0)).2 = [(((0 : ℤ), (0 : ℤ)), ([] : List Vertex))] := by
  exact ⟨by decide, by decide⟩

/-- C8 amended: the search never changes any neighbour set — after any run of
the defaultdict-faithful search, every lookup observes exactly the neighbour
sets the built graph held (the only mutation defaultdict reads can make is
inserting an absent key with an empty neighbour set), and its outcome equals
the pure search's. -/
theorem C8_amended_reads_unchanged (board_size start_row start_col : ℤ) :
    (∀ x, lookupAdj
        (traverse_st (board_size * board_size)
          ((board_size * board_size).toNat + 2) (build_graph board_size) []
          (start_row, start_col)).2 x =
      lookupAdj (build_graph board_size) x) ∧
      (traverse_st (board_size * board_size)
          ((board_size * board_size).toNat + 2) (build_graph board_size) []
          (start_row, start_col)).1 =
        find_knights_tour board_size start_row start_col := by
  refine ⟨(traverse_st_spec _ _ _ _ _).2, ?_⟩
  rw [find_knights_tour_def]
  exact (traverse_st_spec _ _ _ _ _).1

set_option maxRecDepth 10000 in
/-- C9: for every board size `N ≥ 1` and every start, the search terminates
with a tour or a failure (the model's fuel, `N*N + 2`, is never exhausted
because each recursive call visits a fresh graph vertex); in particular it
fails on the boards 2, 3 and 4 from `(0, 0)`, where no tour exists. -/
theorem C9_search_terminates :
    (∀ board_size start_row start_col : ℤ, 1 ≤ board_size →
      (find_knights_tour board_size start_row start_col = TOut.fail ∨
        ∃ t, find_knights_tour board_size start_row start_col = TOut.tour t)) ∧
      find_knights_tour 2 0 0 = TOut.fail ∧
      find_knights_tour 3 0 0 = TOut.fail ∧
      find_knights_tour 4 0 0 = TOut.fail := by
  refine ⟨?_, by decide, by decide, by decide⟩
  intro board_size start_row start_col hb
  cases h : find_knights_tour board_size start_row start_col with
  | tour t => exact Or.inr ⟨t, rfl⟩
  | fail => exact Or.inl rfl
  | fuelOut => exact absurd h (find_knights_tour_ne_fuelOut _ _ _)

/-- C9 witness: the termination disjunction at a concrete instance. -/
theorem C9_search_terminates_witness :
    find_knights_tour 1 0 0 = TOut.fail ∨
      ∃ t, find_knights_tour 1 0 0 = TOut.tour t :=
  C9_search_terminates.1 1 0 0 (by norm_num)

/-- C10: on a board of size 1 the success test fires before any bounds check
or graph lookup, so the search returns `[(start_row, start_col)]` for every
start vertex whatsoever, in or out of the board. -/
theorem C10_board_one_returns_any_start (start_row start_col : ℤ) :
    find_knights_tour 1 start_row start_col =
      TOut.tour [(start_row, start_col)] := by
  rw [find_knights_tour_def]
  show traverse (build_graph 1) (1 * 1) (((1 : ℤ) * 1).toNat + 1 + 1) []
    (start_row, start_col) = _
  rw [traverse_fuel_succ, if_pos (by norm_num)]
  rfl
